import Mathlib

/-!
Verification of the gostatix probabilistic data-structure library.

Every structure in the library sees its input bytes only through an
external 128-bit hash (`dgryski/go-metro`, seed 1373, or the vendored
`sum128`).  The hash library is not part of this repository, so a datum
is modelled by the pair of 64-bit hash words the library produces for it;
all theorems below are independent of the concrete hash values unless
stated otherwise.  Machine `uint64` arithmetic is modelled over `ℕ` with
explicit reduction modulo `2 ^ 64` wherever Go overflow can occur, and
`uint8` stores reduce modulo `2 ^ 8`.
-/

namespace Gostatix

/-- `2^64`, the modulus of Go `uint64` arithmetic. -/
def U64 : ℕ := 2 ^ 64

/-! ## Bloom filter (`bloom_filter.go`)

`getIndex` embeds `BloomFilter.getIndex`:
`uint(math.Abs(float64((h1 + j*h2 + uint64(floor((j³-j)/6))) % uint64(size))))`.
The additions and the multiplication wrap modulo `2^64`; the cubic term is
computed in float64, which is exact for the small loop indices `j < k`, and
equals `(j^3 - j) / 6` over `ℕ`.  The final `uint(Abs(float64 _))` round
trip is applied to a value `< size` and is the same deterministic map in
`Insert` and in `Lookup`. -/
def getIndex (size h1 h2 j : ℕ) : ℕ :=
  ((h1 + j * h2 + (j ^ 3 - j) / 6) % U64) % size

/-- In-memory `BloomFilter`: `size`, `numHashes` and the backing
`BitSetMem`, which we model as the set of indices of set bits
(`bitset.Set` only ever turns bits on). -/
structure BloomFilter where
  size : ℕ
  numHashes : ℕ
  filter : Finset ℕ

/-- The `k` bit positions probed for a datum with hash words `h`:
the loop `for i := 0; i < numHashes; i++ { getIndex(hashes, i) }`. -/
def bloomIndexes (size numHashes : ℕ) (h : ℕ × ℕ) : List ℕ :=
  (List.range numHashes).map (getIndex size h.1 h.2)

/-- `BloomFilter.Insert`: set each of the `k` probed bits
(`bloomFilter.filter.Insert(bloomFilter.getIndex(hashes, i))`). -/
def bloomInsert (bf : BloomFilter) (h : ℕ × ℕ) : BloomFilter :=
  { bf with
    filter := (bloomIndexes bf.size bf.numHashes h).foldl (fun s i => insert i s) bf.filter }

/-- `BloomFilter.Lookup`: true iff every probed bit is set. -/
def bloomLookup (bf : BloomFilter) (h : ℕ × ℕ) : Bool :=
  (bloomIndexes bf.size bf.numHashes h).all fun i => decide (i ∈ bf.filter)

/-- A sequence of further `Insert` calls. -/
def bloomInsertList (bf : BloomFilter) (hs : List (ℕ × ℕ)) : BloomFilter :=
  hs.foldl bloomInsert bf

theorem mem_foldl_insert {l : List ℕ} {s : Finset ℕ} {a : ℕ} (ha : a ∈ s) :
    a ∈ l.foldl (fun t i => insert i t) s := by
  induction l generalizing s with
  | nil => exact ha
  | cons b l ih => exact ih (Finset.mem_insert_of_mem ha)

theorem mem_foldl_insert_of_mem_list {l : List ℕ} {s : Finset ℕ} {a : ℕ} (ha : a ∈ l) :
    a ∈ l.foldl (fun t i => insert i t) s := by
  induction l generalizing s with
  | nil => cases ha
  | cons b l ih =>
    simp only [List.foldl_cons]
    rcases List.mem_cons.mp ha with h | h
    · subst h; exact mem_foldl_insert (Finset.mem_insert_self _ _)
    · exact ih h

theorem foldl_insert_eq (l : List ℕ) (s : Finset ℕ) :
    l.foldl (fun t i => insert i t) s = s ∪ l.toFinset := by
  induction l generalizing s with
  | nil => simp
  | cons a l ih =>
    simp only [List.foldl_cons, ih, List.toFinset_cons]
    ext x
    simp only [Finset.mem_union, Finset.mem_insert, List.mem_toFinset]
    tauto

theorem bloomInsert_size (bf : BloomFilter) (h : ℕ × ℕ) :
    (bloomInsert bf h).size = bf.size := rfl

theorem bloomInsert_numHashes (bf : BloomFilter) (h : ℕ × ℕ) :
    (bloomInsert bf h).numHashes = bf.numHashes := rfl

theorem bloomInsert_filter_subset (bf : BloomFilter) (h : ℕ × ℕ) :
    bf.filter ⊆ (bloomInsert bf h).filter := fun _ ha => mem_foldl_insert ha

theorem bloomInsertList_size (bf : BloomFilter) (hs : List (ℕ × ℕ)) :
    (bloomInsertList bf hs).size = bf.size := by
  induction hs generalizing bf with
  | nil => rfl
  | cons a l ih => exact ih (bloomInsert bf a)

theorem bloomInsertList_numHashes (bf : BloomFilter) (hs : List (ℕ × ℕ)) :
    (bloomInsertList bf hs).numHashes = bf.numHashes := by
  induction hs generalizing bf with
  | nil => rfl
  | cons a l ih => exact ih (bloomInsert bf a)

theorem bloomInsertList_filter_subset (bf : BloomFilter) (hs : List (ℕ × ℕ)) :
    bf.filter ⊆ (bloomInsertList bf hs).filter := by
  induction hs generalizing bf with
  | nil => exact fun _ ha => ha
  | cons a l ih =>
    exact fun x hx => ih (bloomInsert bf a) (bloomInsert_filter_subset bf a hx)

theorem bloomInsert_filter_eq (bf : BloomFilter) (h : ℕ × ℕ) :
    (bloomInsert bf h).filter
      = bf.filter ∪ (bloomIndexes bf.size bf.numHashes h).toFinset :=
  foldl_insert_eq _ _

/-- **C1.** For every datum `x` (seen through its hash words) and every
in-process Bloom filter, after `Insert(x)` and any further sequence of
`Insert` calls, `Lookup(x)` returns true; `Insert` adds exactly the probed
bit positions to the bit set, and no `Insert` ever clears a bit. -/
theorem bloom_no_false_negatives (bf : BloomFilter) (x : ℕ × ℕ)
    (rest : List (ℕ × ℕ)) (hsize : 0 < bf.size) :
    bloomLookup (bloomInsertList (bloomInsert bf x) rest) x = true ∧
    (bloomInsert bf x).filter
      = bf.filter ∪ (bloomIndexes bf.size bf.numHashes x).toFinset ∧
    bf.filter ⊆ (bloomInsertList (bloomInsert bf x) rest).filter := by
  refine ⟨?_, bloomInsert_filter_eq bf x, ?_⟩
  · unfold bloomLookup
    rw [bloomInsertList_size, bloomInsertList_numHashes,
      bloomInsert_size, bloomInsert_numHashes]
    rw [List.all_eq_true]
    intro i hi
    rw [decide_eq_true_iff]
    refine bloomInsertList_filter_subset (bloomInsert bf x) rest ?_
    exact mem_foldl_insert_of_mem_list hi
  · exact fun a ha =>
      bloomInsertList_filter_subset (bloomInsert bf x) rest
        (bloomInsert_filter_subset bf x ha)

/-- Witness for C1 at a concrete filter: size 8, two hash functions,
empty bit set, datum with hash words (3, 5), one further insert. -/
theorem bloom_no_false_negatives_witness :
    0 < (BloomFilter.mk 8 2 ∅).size ∧
    bloomLookup (bloomInsertList (bloomInsert (BloomFilter.mk 8 2 ∅) (3, 5)) [(7, 1)]) (3, 5)
      = true := by
  refine ⟨by decide, ?_⟩
  exact (bloom_no_false_negatives (BloomFilter.mk 8 2 ∅) (3, 5) [(7, 1)] (by decide)).1

/-! ## Count-Min Sketch (`count_min_sketch.go`, `getPositions` from the abstract base)

`getPositions` derives one column per row by double hashing:
`positions[c] = uint((hash1 + uint64(c)*hash2) % uint64(columns))`. -/

/-- The column probed in row `r` for hash words `h`. -/
def cmsPos (columns : ℕ) (h : ℕ × ℕ) (r : ℕ) : ℕ :=
  ((h.1 + r * h.2) % U64) % columns

/-- `AbstractCountMinSketch.getPositions`. -/
def getPositions (rows columns : ℕ) (h : ℕ × ℕ) : List ℕ :=
  (List.range rows).map (cmsPos columns h)

/-- In-memory `CountMinSketch`: dimensions, `allSum` and the counter
matrix, all counters being Go `uint64` values. -/
structure CountMinSketch where
  rows : ℕ
  columns : ℕ
  allSum : ℕ
  matrix : List (List ℕ)
  deriving DecidableEq

/-- `NewCountMinSketch` (after its positivity check): all-zero matrix. -/
def newCountMinSketch (rows columns : ℕ) : CountMinSketch :=
  ⟨rows, columns, 0, List.replicate rows (List.replicate columns 0)⟩

/-- Cell read `matrix[r][c]` (always used at in-range indices). -/
def cell (m : List (List ℕ)) (r c : ℕ) : ℕ :=
  (m.getD r []).getD c 0

/-- Cell write `matrix[r][c] += count` with `uint64` wrap-around. -/
def matrixAdd (m : List (List ℕ)) (r c cnt : ℕ) : List (List ℕ) :=
  m.set r ((m.getD r []).set c ((cell m r c + cnt) % U64))

/-- `CountMinSketch.Update`:
`for r, c := range getPositions(data) { matrix[r][c] += count }; allSum += count`. -/
def cmsUpdate (cms : CountMinSketch) (h : ℕ × ℕ) (count : ℕ) : CountMinSketch :=
  { cms with
    matrix := (getPositions cms.rows cms.columns h).enum.foldl
      (fun acc rc => matrixAdd acc rc.1 rc.2 count) cms.matrix
    allSum := (cms.allSum + count) % U64 }

/-- `CountMinSketch.Count`: running minimum over the probed cells, seeded
at row 0 by the `r == 0 ||` clause. -/
def cmsCount (cms : CountMinSketch) (h : ℕ × ℕ) : ℕ :=
  (getPositions cms.rows cms.columns h).enum.foldl
    (fun mn rc =>
      if rc.1 = 0 ∨ cell cms.matrix rc.1 rc.2 < mn
      then cell cms.matrix rc.1 rc.2 else mn) 0

/-- A sequence of `Update` calls, each a datum (hash pair) and a count. -/
def cmsRun (cms : CountMinSketch) (us : List ((ℕ × ℕ) × ℕ)) : CountMinSketch :=
  us.foldl (fun c u => cmsUpdate c u.1 u.2) cms

theorem getD_set_ne {α : Type} (l : List α) (i j : ℕ) (v : α) (d : α) (hij : i ≠ j) :
    (l.set i v).getD j d = l.getD j d := by
  simp [List.getD, List.getElem?_set, hij]

theorem getD_set_self {α : Type} (l : List α) (i : ℕ) (v : α) (d : α) (hi : i < l.length) :
    (l.set i v).getD i d = v := by
  simp [List.getD, List.getElem?_set, hi]

theorem matrixAdd_length (m : List (List ℕ)) (r c cnt : ℕ) :
    (matrixAdd m r c cnt).length = m.length := by
  simp [matrixAdd]

theorem matrixAdd_row_length (m : List (List ℕ)) (r c cnt r2 : ℕ) :
    ((matrixAdd m r c cnt).getD r2 []).length = (m.getD r2 []).length := by
  unfold matrixAdd
  rcases eq_or_ne r r2 with hrr | hrr
  · subst hrr
    rcases Nat.lt_or_ge r m.length with hr | hr
    · rw [getD_set_self _ _ _ _ hr, List.length_set]
    · rw [List.set_eq_of_length_le hr]
  · rw [getD_set_ne _ _ _ _ _ hrr]

theorem cell_matrixAdd_self (m : List (List ℕ)) (r c cnt : ℕ)
    (hr : r < m.length) (hc : c < (m.getD r []).length) :
    cell (matrixAdd m r c cnt) r c = (cell m r c + cnt) % U64 := by
  unfold cell matrixAdd
  rw [getD_set_self _ _ _ _ hr, getD_set_self _ _ _ _ hc]
  rfl

theorem cell_matrixAdd_ne (m : List (List ℕ)) (r c cnt r2 c2 : ℕ)
    (hne : (r2, c2) ≠ (r, c)) :
    cell (matrixAdd m r c cnt) r2 c2 = cell m r2 c2 := by
  unfold cell matrixAdd
  rcases eq_or_ne r r2 with hrr | hrr
  · subst hrr
    have hcc : c ≠ c2 := by
      intro hc; exact hne (by simp [hc])
    rcases Nat.lt_or_ge r m.length with hr | hr
    · rw [getD_set_self _ _ _ _ hr, getD_set_ne _ _ _ _ _ hcc]
    · rw [List.set_eq_of_length_le hr]
  · rw [getD_set_ne _ _ _ _ _ hrr]

theorem cell_foldl_matrixAdd (cnt : ℕ) (L : List (ℕ × ℕ)) :
    ∀ (m : List (List ℕ)), (L.map Prod.fst).Nodup →
      (∀ p ∈ L, p.1 < m.length ∧ p.2 < (m.getD p.1 []).length) →
      ∀ r c, cell (L.foldl (fun acc rc => matrixAdd acc rc.1 rc.2 cnt) m) r c =
        if (r, c) ∈ L then (cell m r c + cnt) % U64 else cell m r c := by
  induction L with
  | nil => intro m _ _ r c; simp
  | cons a L ih =>
    intro m hnd hbound r c
    simp only [List.foldl_cons]
    have hnd' : (L.map Prod.fst).Nodup := (List.nodup_cons.mp (by simpa using hnd)).2
    have hafst : a.1 ∉ L.map Prod.fst := (List.nodup_cons.mp (by simpa using hnd)).1
    have hbound' : ∀ p ∈ L, p.1 < (matrixAdd m a.1 a.2 cnt).length ∧
        p.2 < ((matrixAdd m a.1 a.2 cnt).getD p.1 []).length := by
      intro p hp
      rw [matrixAdd_length, matrixAdd_row_length]
      exact hbound p (List.mem_cons_of_mem a hp)
    rw [ih (matrixAdd m a.1 a.2 cnt) hnd' hbound' r c]
    rcases eq_or_ne (r, c) a with hra | hra
    · subst hra
      have hnotL : (r, c) ∉ L := fun hmem => hafst (List.mem_map_of_mem Prod.fst hmem)
      rw [if_neg hnotL, if_pos (List.mem_cons_self _ L)]
      have hb := hbound (r, c) (List.mem_cons_self _ L)
      exact cell_matrixAdd_self m r c cnt hb.1 hb.2
    · have hcell : cell (matrixAdd m a.1 a.2 cnt) r c = cell m r c := by
        refine cell_matrixAdd_ne m a.1 a.2 cnt r c ?_
        intro hx; exact hra (by rw [hx])
      rw [hcell]
      have hiff : ((r, c) ∈ a :: L) ↔ ((r, c) ∈ L) := by
        simp only [List.mem_cons]
        exact ⟨fun h => h.resolve_left hra, Or.inr⟩
      simp only [hiff]

theorem enum_map_range (n : ℕ) (f : ℕ → ℕ) :
    ((List.range n).map f).enum = (List.range n).map fun r => (r, f r) := by
  rw [List.enum_eq_zip_range, List.length_map, List.length_range]
  calc (List.range n).zip ((List.range n).map f)
      = ((List.range n).map id).zip ((List.range n).map f) := by rw [List.map_id]
    _ = (List.range n).map fun r => (id r, f r) := List.zip_map' id f (List.range n)
    _ = (List.range n).map fun r => (r, f r) := rfl

/-- Matrices are well-shaped: `rows` rows of `columns` cells each. -/
def Shaped (cms : CountMinSketch) : Prop :=
  cms.matrix.length = cms.rows ∧ ∀ r < cms.rows, (cms.matrix.getD r []).length = cms.columns

theorem getD_replicate_lt {α : Type} (n : ℕ) (a : α) (r : ℕ) (d : α) (hr : r < n) :
    (List.replicate n a).getD r d = a := by
  simp [List.getD, List.getElem?_replicate, hr]

theorem shaped_new (rows columns : ℕ) : Shaped (newCountMinSketch rows columns) := by
  constructor
  · simp [newCountMinSketch]
  · intro r hr
    have hr2 : r < rows := hr
    simp only [newCountMinSketch]
    rw [getD_replicate_lt _ _ _ _ hr2]
    simp

theorem cmsUpdate_rows (cms : CountMinSketch) (h : ℕ × ℕ) (cnt : ℕ) :
    (cmsUpdate cms h cnt).rows = cms.rows := rfl

theorem cmsUpdate_columns (cms : CountMinSketch) (h : ℕ × ℕ) (cnt : ℕ) :
    (cmsUpdate cms h cnt).columns = cms.columns := rfl

theorem foldl_matrixAdd_length (cnt : ℕ) (L : List (ℕ × ℕ)) (m : List (List ℕ)) :
    (L.foldl (fun acc rc => matrixAdd acc rc.1 rc.2 cnt) m).length = m.length := by
  induction L generalizing m with
  | nil => rfl
  | cons a L ih => rw [List.foldl_cons, ih, matrixAdd_length]

theorem foldl_matrixAdd_row_length (cnt : ℕ) (L : List (ℕ × ℕ)) (m : List (List ℕ)) (r : ℕ) :
    ((L.foldl (fun acc rc => matrixAdd acc rc.1 rc.2 cnt) m).getD r []).length
      = (m.getD r []).length := by
  induction L generalizing m with
  | nil => rfl
  | cons a L ih => rw [List.foldl_cons, ih, matrixAdd_row_length]

theorem shaped_cmsUpdate (cms : CountMinSketch) (h : ℕ × ℕ) (cnt : ℕ)
    (hs : Shaped cms) : Shaped (cmsUpdate cms h cnt) := by
  constructor
  · unfold cmsUpdate
    dsimp only
    rw [foldl_matrixAdd_length]
    exact hs.1
  · intro r hr
    unfold cmsUpdate
    dsimp only
    rw [foldl_matrixAdd_row_length]
    exact hs.2 r hr

theorem cmsUpdate_cell (cms : CountMinSketch) (h : ℕ × ℕ) (cnt : ℕ)
    (hs : Shaped cms) (r c : ℕ) (hr : r < cms.rows) (hc : c < cms.columns) :
    cell (cmsUpdate cms h cnt).matrix r c =
      if c = cmsPos cms.columns h r
      then (cell cms.matrix r c + cnt) % U64 else cell cms.matrix r c := by
  show cell ((getPositions cms.rows cms.columns h).enum.foldl
      (fun acc rc => matrixAdd acc rc.1 rc.2 cnt) cms.matrix) r c = _
  rw [getPositions, enum_map_range]
  have hnd : (((List.range cms.rows).map fun r => (r, cmsPos cms.columns h r)).map
      Prod.fst).Nodup := by
    rw [List.map_map]
    exact (List.nodup_range _).map (fun a b hab => hab)
  have hbound : ∀ p ∈ (List.range cms.rows).map fun r => (r, cmsPos cms.columns h r),
      p.1 < cms.matrix.length ∧ p.2 < (cms.matrix.getD p.1 []).length := by
    intro p hp
    rcases List.mem_map.mp hp with ⟨r2, hr2, hpr⟩
    have hr2lt : r2 < cms.rows := List.mem_range.mp hr2
    subst hpr
    constructor
    · rw [hs.1]; exact hr2lt
    · rw [hs.2 r2 hr2lt]
      exact Nat.mod_lt _ (Nat.lt_of_le_of_lt (Nat.zero_le c) hc)
  rw [cell_foldl_matrixAdd cnt _ cms.matrix hnd hbound r c]
  have hmem : ((r, c) ∈ (List.range cms.rows).map fun r => (r, cmsPos cms.columns h r))
      ↔ c = cmsPos cms.columns h r := by
    constructor
    · intro hm
      rcases List.mem_map.mp hm with ⟨r2, _, hpr⟩
      have : r2 = r ∧ cmsPos cms.columns h r2 = c := by
        constructor
        · exact congrArg Prod.fst hpr
        · exact congrArg Prod.snd hpr
      rcases this with ⟨h1, h2⟩
      rw [← h2, h1]
    · intro hceq
      refine List.mem_map.mpr ⟨r, List.mem_range.mpr hr, ?_⟩
      rw [hceq]
  by_cases hcp : c = cmsPos cms.columns h r
  · rw [if_pos (hmem.mpr hcp), if_pos hcp]
  · rw [if_neg (fun hm => hcp (hmem.mp hm)), if_neg hcp]

/-- What a probed cell holds after the update sequence `us` (no
overflow): the sum of the counts of all updates that hash into it. -/
def trueCell (columns : ℕ) (us : List ((ℕ × ℕ) × ℕ)) (r c : ℕ) : ℕ :=
  ((us.filter fun u => cmsPos columns u.1 r = c).map fun u => u.2).sum

theorem trueCell_le_sum (columns : ℕ) (us : List ((ℕ × ℕ) × ℕ)) (r c : ℕ) :
    trueCell columns us r c ≤ (us.map fun u => u.2).sum := by
  refine List.Sublist.sum_le_sum ?_ ?_
  · exact (List.filter_sublist us).map _
  · intro a _; exact Nat.zero_le a

theorem cmsRun_rows (cms : CountMinSketch) (us : List ((ℕ × ℕ) × ℕ)) :
    (cmsRun cms us).rows = cms.rows := by
  induction us generalizing cms with
  | nil => rfl
  | cons a l ih => exact ih (cmsUpdate cms a.1 a.2)

theorem cmsRun_columns (cms : CountMinSketch) (us : List ((ℕ × ℕ) × ℕ)) :
    (cmsRun cms us).columns = cms.columns := by
  induction us generalizing cms with
  | nil => rfl
  | cons a l ih => exact ih (cmsUpdate cms a.1 a.2)

theorem shaped_cmsRun (cms : CountMinSketch) (us : List ((ℕ × ℕ) × ℕ))
    (hs : Shaped cms) : Shaped (cmsRun cms us) := by
  induction us generalizing cms with
  | nil => exact hs
  | cons a l ih => exact ih (cmsUpdate cms a.1 a.2) (shaped_cmsUpdate cms a.1 a.2 hs)

theorem cmsRun_append_singleton (cms : CountMinSketch) (us : List ((ℕ × ℕ) × ℕ))
    (u : (ℕ × ℕ) × ℕ) :
    cmsRun cms (us ++ [u]) = cmsUpdate (cmsRun cms us) u.1 u.2 := by
  unfold cmsRun
  rw [List.foldl_append]
  rfl

theorem cell_new (rows columns r c : ℕ) (hr : r < rows) :
    cell (newCountMinSketch rows columns).matrix r c = 0 := by
  unfold cell newCountMinSketch
  dsimp only
  rw [getD_replicate_lt _ _ _ _ hr]
  rcases Nat.lt_or_ge c columns with hc | hc
  · rw [getD_replicate_lt _ _ _ _ hc]
  · rw [List.getD_eq_default]
    simpa using hc

theorem cmsRun_cell (rows columns : ℕ) (us : List ((ℕ × ℕ) × ℕ)) (r c : ℕ)
    (hsum : ((us.map fun u => u.2).sum) < U64) (hr : r < rows) (hc : c < columns) :
    cell (cmsRun (newCountMinSketch rows columns) us).matrix r c
      = trueCell columns us r c := by
  induction us using List.reverseRecOn with
  | nil =>
    show cell (newCountMinSketch rows columns).matrix r c = trueCell columns [] r c
    rw [cell_new rows columns r c hr]
    rfl
  | append_singleton us u ih =>
    have hsum1 : ((us.map fun u => u.2).sum) < U64 := by
      rw [List.map_append, List.sum_append] at hsum
      omega
    have hcellold := ih hsum1
    rw [cmsRun_append_singleton]
    have hsh : Shaped (cmsRun (newCountMinSketch rows columns) us) :=
      shaped_cmsRun _ _ (shaped_new rows columns)
    have hrow : r < (cmsRun (newCountMinSketch rows columns) us).rows := by
      rw [cmsRun_rows]; exact hr
    have hcol : c < (cmsRun (newCountMinSketch rows columns) us).columns := by
      rw [cmsRun_columns]; exact hc
    rw [cmsUpdate_cell _ u.1 u.2 hsh r c hrow hcol]
    have hcc : (cmsRun (newCountMinSketch rows columns) us).columns = columns :=
      cmsRun_columns _ _
    rw [hcc, hcellold]
    have hsplit : trueCell columns (us ++ [u]) r c
        = trueCell columns us r c + (if cmsPos columns u.1 r = c then u.2 else 0) := by
      unfold trueCell
      rw [List.filter_append, List.map_append, List.sum_append]
      by_cases hp : cmsPos columns u.1 r = c
      · simp [hp]
      · simp [hp]
    rw [hsplit]
    have hbound : trueCell columns us r c + u.2 < U64 := by
      have h1 := trueCell_le_sum columns us r c
      rw [List.map_append, List.sum_append] at hsum
      simpa using Nat.lt_of_le_of_lt (Nat.add_le_add_right h1 u.2) hsum
    by_cases hp : c = cmsPos columns u.1 r
    · rw [if_pos hp, if_pos hp.symm, Nat.mod_eq_of_lt hbound]
    · rw [if_neg hp, if_neg (fun hx => hp hx.symm), Nat.add_zero]

/-- The `Count` loop as a running minimum over explicit row values. -/
def minFold (v : ℕ → ℕ) (n : ℕ) : ℕ :=
  (List.range n).foldl (fun mn r => if r = 0 ∨ v r < mn then v r else mn) 0

theorem cmsCount_eq_minFold (cms : CountMinSketch) (h : ℕ × ℕ) :
    cmsCount cms h
      = minFold (fun r => cell cms.matrix r (cmsPos cms.columns h r)) cms.rows := by
  unfold cmsCount minFold
  rw [getPositions, enum_map_range, List.foldl_map]

theorem minFold_succ (v : ℕ → ℕ) (n : ℕ) :
    minFold v (n + 1)
      = if n = 0 ∨ v n < minFold v n then v n else minFold v n := by
  unfold minFold
  rw [List.range_succ, List.foldl_append]
  rfl

theorem minFold_ge (v : ℕ → ℕ) (B n : ℕ) (hn : 0 < n) (hB : ∀ r < n, B ≤ v r) :
    B ≤ minFold v n := by
  induction n with
  | zero => cases hn
  | succ n ih =>
    rw [minFold_succ]
    by_cases hcond : n = 0 ∨ v n < minFold v n
    · rw [if_pos hcond]
      exact hB n (Nat.lt_succ_self n)
    · rw [if_neg hcond]
      push_neg at hcond
      refine ih (Nat.pos_of_ne_zero hcond.1) fun r hr => hB r (Nat.lt_succ_of_lt hr)

theorem minFold_mono (v w : ℕ → ℕ) (n : ℕ) (hvw : ∀ r < n, v r ≤ w r) :
    minFold v n ≤ minFold w n := by
  induction n with
  | zero => exact Nat.le_refl _
  | succ n ih =>
    have ihn := ih fun r hr => hvw r (Nat.lt_succ_of_lt hr)
    have hn := hvw n (Nat.lt_succ_self n)
    rw [minFold_succ, minFold_succ]
    by_cases h0 : n = 0
    · subst h0
      rw [if_pos (Or.inl rfl), if_pos (Or.inl rfl)]
      exact hvw 0 (Nat.lt_succ_self 0)
    · by_cases hv : v n < minFold v n <;> by_cases hw : w n < minFold w n <;>
        simp [h0, hv, hw] <;> omega

/-- **C4 (amended).** Provided the total inserted weight stays below
`2^64` (Go counters are `uint64` and wrap), `Count(x)` is non-decreasing
under any further `Update`, and `Count(x)` is at least the sum of counts
of the updates whose datum equals `x`. -/
theorem minFold_congr (v w : ℕ → ℕ) (n : ℕ) (h : ∀ r < n, v r = w r) :
    minFold v n = minFold w n :=
  Nat.le_antisymm
    (minFold_mono v w n fun r hr => (h r hr).le)
    (minFold_mono w v n fun r hr => (h r hr).ge)

theorem cms_count_monotone_and_lower_bound (rows columns : ℕ)
    (us : List ((ℕ × ℕ) × ℕ)) (u : (ℕ × ℕ) × ℕ) (x : ℕ × ℕ)
    (hrows : 0 < rows) (hcols : 0 < columns)
    (hsum : (((us ++ [u]).map fun p => p.2).sum) < U64) :
    cmsCount (cmsRun (newCountMinSketch rows columns) us) x ≤
      cmsCount (cmsRun (newCountMinSketch rows columns) (us ++ [u])) x ∧
    ((us.filter fun p => p.1 = x).map fun p => p.2).sum ≤
      cmsCount (cmsRun (newCountMinSketch rows columns) us) x := by
  have hsum1 : ((us.map fun u => u.2).sum) < U64 := by
    rw [List.map_append, List.sum_append] at hsum
    omega
  have hchar : ∀ (vs : List ((ℕ × ℕ) × ℕ)), ((vs.map fun u => u.2).sum) < U64 →
      cmsCount (cmsRun (newCountMinSketch rows columns) vs) x
        = minFold (fun r => trueCell columns vs r (cmsPos columns x r)) rows := by
    intro vs hvs
    rw [cmsCount_eq_minFold, cmsRun_rows, cmsRun_columns]
    refine minFold_congr _ _ rows fun r hr => ?_
    exact cmsRun_cell rows columns vs r _ hvs hr (Nat.mod_lt _ hcols)
  constructor
  · rw [hchar us hsum1, hchar (us ++ [u]) hsum]
    refine minFold_mono _ _ rows fun r hr => ?_
    unfold trueCell
    rw [List.filter_append, List.map_append, List.sum_append]
    exact Nat.le_add_right _ _
  · rw [hchar us hsum1]
    refine minFold_ge _ _ rows hrows fun r hr => ?_
    unfold trueCell
    refine List.Sublist.sum_le_sum
      (List.Sublist.map _ (List.monotone_filter_right us ?_))
      (fun a _ => Nat.zero_le a)
    intro p hp
    simp only [decide_eq_true_eq] at hp ⊢
    rw [hp]

/-- **C4 counterexample.** On a 1×1 sketch every probed column is
`_ % 1 = 0`, independent of the hash words, so this run is a run of the
Go code for any two inserts of the same datum.  Updating `x` with count
`2^64 - 1` and then with count `1` wraps the `uint64` counter: `Count(x)`
drops from `2^64 - 1` to `0`, so it is neither non-decreasing nor at
least the inserted total. -/
theorem cms_count_overflow_counterexample :
    cmsCount (cmsRun (newCountMinSketch 1 1) [((0, 0), U64 - 1)]) (0, 0) = U64 - 1 ∧
    cmsCount (cmsRun (newCountMinSketch 1 1) [((0, 0), U64 - 1), ((0, 0), 1)]) (0, 0) = 0 := by
  exact ⟨rfl, rfl⟩

/-- Witness for the amended C4 theorem at a concrete sketch. -/
theorem cms_count_monotone_and_lower_bound_witness :
    (0 < 1 ∧ ((([(((0 : ℕ), (0 : ℕ)), (2 : ℕ))] ++ [(((1 : ℕ), (1 : ℕ)), (3 : ℕ))]).map
        fun p => p.2).sum) < U64) ∧
    (cmsCount (cmsRun (newCountMinSketch 1 1) [(((0 : ℕ), (0 : ℕ)), (2 : ℕ))]) (0, 0) ≤
      cmsCount (cmsRun (newCountMinSketch 1 1)
        ([(((0 : ℕ), (0 : ℕ)), (2 : ℕ))] ++ [(((1 : ℕ), (1 : ℕ)), (3 : ℕ))])) (0, 0) ∧
     (([(((0 : ℕ), (0 : ℕ)), (2 : ℕ))].filter fun p => p.1 = ((0 : ℕ), (0 : ℕ))).map
        fun p => p.2).sum ≤
      cmsCount (cmsRun (newCountMinSketch 1 1) [(((0 : ℕ), (0 : ℕ)), (2 : ℕ))]) (0, 0)) :=
  ⟨⟨by decide, by decide⟩,
   cms_count_monotone_and_lower_bound 1 1 [((0, 0), 2)] ((1, 1), 3) (0, 0)
     (by decide) (by decide) (by decide)⟩

/-! ## `CountMinSketch.Merge` (C10)

`Merge` checks the two dimensions and returns an error before touching
anything; on success it runs
`for i := range cms.matrix { for j := range cms.matrix[i] { cms.matrix[i][j] += cms1.matrix[i][j] } }`.
To make the frame property meaningful the loop is embedded as a fold
over the pair (receiver, argument): the body writes one cell of the
receiver and passes the argument through unchanged, exactly as the Go
loop writes `cms` and only reads `cms1`. -/

inductive MergeError where
  | rowMismatch : MergeError
  | columnMismatch : MergeError
  deriving DecidableEq

/-- `CountMinSketch.Merge`, returning (error, receiver-after, argument-after). -/
def cmsMerge (a b : CountMinSketch) : Option MergeError × CountMinSketch × CountMinSketch :=
  if a.rows ≠ b.rows then (some MergeError.rowMismatch, a, b)
  else if a.columns ≠ b.columns then (some MergeError.columnMismatch, a, b)
  else
    let st := (List.range a.matrix.length).foldl
      (fun st i =>
        (List.range ((st.1.matrix.getD i []).length)).foldl
          (fun st2 j =>
            ({ st2.1 with
               matrix := matrixAdd st2.1.matrix i j (cell st2.2.matrix i j) }, st2.2))
          st)
      (a, b)
    (none, st.1, st.2)

theorem foldl_preserves_snd {α β : Type} (b : (α × β) → ℕ → (α × β))
    (h : ∀ st i, (b st i).2 = st.2) (L : List ℕ) (st : α × β) :
    (L.foldl b st).2 = st.2 := by
  induction L generalizing st with
  | nil => rfl
  | cons a L ih =>
    rw [List.foldl_cons]
    rw [ih (b st a), h st a]

/-- **C10.** `Merge` never mutates its argument, and when it reports a
shape mismatch the receiver is unchanged as well. -/
theorem cms_merge_frame (a b : CountMinSketch) :
    (cmsMerge a b).2.2 = b ∧
    ((cmsMerge a b).1.isSome = true → (cmsMerge a b).2.1 = a) := by
  unfold cmsMerge
  by_cases hr : a.rows ≠ b.rows
  · rw [if_pos hr]
    exact ⟨rfl, fun _ => rfl⟩
  · rw [if_neg hr]
    by_cases hc : a.columns ≠ b.columns
    · rw [if_pos hc]
      exact ⟨rfl, fun _ => rfl⟩
    · rw [if_neg hc]
      refine ⟨?_, ?_⟩
      · show (_ : CountMinSketch × CountMinSketch).2 = b
        refine foldl_preserves_snd _ (fun st i => ?_) _ (a, b)
        exact foldl_preserves_snd
          (fun st2 j =>
            ({ st2.1 with
               matrix := matrixAdd st2.1.matrix i j (cell st2.2.matrix i j) }, st2.2))
          (fun st2 j => rfl) _ st
      · intro hsome
        exact absurd hsome (by simp)

/-- Witness for C10 at a concrete pair with mismatched rows. -/
theorem cms_merge_frame_witness :
    (cmsMerge (newCountMinSketch 1 2) (newCountMinSketch 2 2)).1.isSome = true ∧
    (cmsMerge (newCountMinSketch 1 2) (newCountMinSketch 2 2)).2.1
      = newCountMinSketch 1 2 ∧
    (cmsMerge (newCountMinSketch 1 2) (newCountMinSketch 2 2)).2.2
      = newCountMinSketch 2 2 :=
  ⟨by decide,
   (cms_merge_frame (newCountMinSketch 1 2) (newCountMinSketch 2 2)).2 (by decide),
   (cms_merge_frame (newCountMinSketch 1 2) (newCountMinSketch 2 2)).1⟩

/-! ## HyperLogLog (`hyperloglog.go`, base in `base_filter.go` part)

The constructor rejects `m = 0` and non-powers-of-two, and
`numBytesPerHash = uint64(math.Log2(float64(m)))`, which for powers of
two is exactly `log2 m`.  A datum enters only through the first 64-bit
word of its metro hash, so `Update` is modelled on that word. -/

/-- `bits.LeadingZeros64` for `x < 2^64`. -/
def leadingZeros64 (x : ℕ) : ℕ :=
  if x = 0 then 64 else 63 - Nat.log2 x

/-- `AbstractHyperLogLog.getRegisterIndexAndCount`:
`k := 32 - numBytesPerHash` (uint64 subtraction, wrapping for p > 32),
`registerIndex := 1 + LeadingZeros64(hash << p)`,
`count := hash >> k` (a uint64 shift by ≥ 64 bits yields 0). -/
def getRegisterIndexAndCount (m h : ℕ) : ℕ × ℕ :=
  (1 + leadingZeros64 ((h * 2 ^ Nat.log2 m) % U64),
   if (32 + U64 - Nat.log2 m) % U64 < 64
   then (h % U64) / 2 ^ ((32 + U64 - Nat.log2 m) % U64) else 0)

/-- `HyperLogLog.Update`:
`registers[registerIndex] = uint8(Max(uint(registers[registerIndex]), uint(count)))`.
`none` models the Go index-out-of-range panic; the `uint8` conversion
truncates the maximum modulo 256. -/
def hllUpdate (m : ℕ) (registers : List ℕ) (h : ℕ) : Option (List ℕ) :=
  let rc := getRegisterIndexAndCount m h
  if rc.1 < registers.length
  then some (registers.set rc.1 ((max (registers.getD rc.1 0) rc.2) % 256))
  else none

/-- **C5.** The register write does not stay inside `0..m-1` and the
written value is not bounded by 64: for `m = 16` a hash word `0` (any
datum whose hash has only zeros after the 4 prefix bits) yields register
index `1 + LeadingZeros64(0) = 65`, out of bounds — `Update` panics; and
a hash word `2^59 + 65·2^28` writes the value 65 > 64 at slot 1. -/
theorem hll_update_violates_register_invariants :
    hllUpdate 16 (List.replicate 16 0) 0 = none ∧
    (getRegisterIndexAndCount 16 0).1 = 65 ∧
    hllUpdate 16 (List.replicate 16 0) (2 ^ 59 + 65 * 2 ^ 28)
      = some ((List.replicate 16 0).set 1 65) ∧
    ¬ (65 : ℕ) ≤ 64 := by
  refine ⟨?_, ?_, ?_, by decide⟩
  · norm_num [hllUpdate, getRegisterIndexAndCount, leadingZeros64, U64, Nat.log2]
  · norm_num [getRegisterIndexAndCount, leadingZeros64, U64, Nat.log2]
  · have hrc : getRegisterIndexAndCount 16 (2 ^ 59 + 65 * 2 ^ 28) = (1, 2 ^ 31 + 65) := by
      unfold getRegisterIndexAndCount
      rw [show (32 + U64 - Nat.log2 16) % U64 = 28 from by norm_num [U64, Nat.log2]]
      rw [show ((2 ^ 59 + 65 * 2 ^ 28) * 2 ^ Nat.log2 16) % U64 = 2 ^ 63 + 65 * 2 ^ 32 from by
        norm_num [U64, Nat.log2]]
      rw [show leadingZeros64 (2 ^ 63 + 65 * 2 ^ 32) = 0 from by
        norm_num [leadingZeros64, Nat.log2]]
      norm_num [U64]
    unfold hllUpdate
    rw [hrc]
    decide

/-- `HyperLogLog.Equals`: register counts must match, then
`for i := 0; i < int(h.numRegisters)-1; i++` compares registers —
the loop stops one register short. -/
def hllEquals (m1 : ℕ) (regs1 : List ℕ) (m2 : ℕ) (regs2 : List ℕ) : Bool :=
  if m1 ≠ m2 then false
  else (List.range (m1 - 1)).all fun i => regs1.getD i 0 == regs2.getD i 0

/-- **C6.** Two HyperLogLogs with `m = 16` whose registers agree except
at the last index 15 are reported equal by `Equals`, although their
register vectors differ at index 15. -/
theorem hll_equals_ignores_last_register :
    hllEquals 16 (List.replicate 16 0) 16 ((List.replicate 16 0).set 15 7) = true ∧
    ¬ (List.replicate 16 0).getD 15 0 = ((List.replicate 16 0).set 15 7).getD 15 0 := by
  exact ⟨by rfl, by decide⟩

/-! ## Cuckoo filter false positive rate (C9)

`AbstractCuckooFilter.CuckooPositiveRate` returns
`math.Pow(2, math.Log2(float64(2*bucketSize)) - float64(fingerPrintLength))`.
The float64 formula is modelled over `ℝ`; the discrepancy proved below
(a factor of `2^(7·f)`) is far beyond double-precision rounding. -/

noncomputable def cuckooPositiveRate (bucketSize fingerPrintLength : ℕ) : ℝ :=
  (2 : ℝ) ^ (Real.logb 2 (2 * bucketSize) - fingerPrintLength)

/-- **C9 counterexample.** For bucket size `b = 4` and fingerprint
length `f = 2` the code reports `2^(log2 8 - 2) = 2`, not
`2·b / 2^(8·f) = 8/65536`. -/
theorem cuckooPositiveRate_ne_spec :
    ¬ cuckooPositiveRate 4 2 = (2 * 4 : ℝ) / 2 ^ (8 * 2) := by
  have h8 : ((2 : ℝ) * (4 : ℕ)) = 2 ^ (3 : ℝ) := by
    rw [show (3 : ℝ) = ((3 : ℕ) : ℝ) from by norm_num, Real.rpow_natCast]
    norm_num
  have hlogb : Real.logb 2 ((2 : ℝ) * (4 : ℕ)) = 3 := by
    rw [h8, Real.logb_rpow (by norm_num) (by norm_num)]
  have hrate : cuckooPositiveRate 4 2 = 2 := by
    unfold cuckooPositiveRate
    rw [hlogb]
    rw [show (3 : ℝ) - ((2 : ℕ) : ℝ) = 1 by norm_num, Real.rpow_one]
  rw [hrate]
  norm_num

/-- **C9 (amended).** The reported false positive rate equals
`2 · b / 2^f` (with `f` counted in fingerprint characters, not bytes). -/
theorem cuckooPositiveRate_eq (b f : ℕ) (hb : 0 < b) :
    cuckooPositiveRate b f = (2 * b : ℝ) / 2 ^ f := by
  unfold cuckooPositiveRate
  have h2b : (0 : ℝ) < 2 * b := by positivity
  rw [Real.rpow_sub (by norm_num), Real.rpow_logb (by norm_num) (by norm_num) h2b]
  rw [Real.rpow_natCast]

/-- Witness for the amended C9 theorem at `b = 4`, `f = 2`. -/
theorem cuckooPositiveRate_eq_witness :
    0 < 4 ∧ cuckooPositiveRate 4 2 = (2 * 4 : ℝ) / 2 ^ 2 :=
  ⟨by decide, cuckooPositiveRate_eq 4 2 (by decide)⟩

/-! ## Bucket (`bucket_mem.go`, current flat-package version) (C7)

Bucket slots hold Go byte strings, modelled as lists of byte values with
`[]` for the empty-slot sentinel `""`. -/

/-- A Go byte string. -/
abbrev GoStr := List ℕ

structure Bucket where
  size : ℕ
  length : ℕ
  elements : List GoStr
  deriving DecidableEq

/-- `newBucketMem`. -/
def newBucketMem (size : ℕ) : Bucket :=
  ⟨size, 0, List.replicate size []⟩

/-- `indexOf`: first index holding `element`, Go returns `-1` (here
`none`) when absent. -/
def indexOf (elements : List GoStr) (element : GoStr) : Option ℕ :=
  elements.findIdx? fun e => e == element

/-- `isFree`. -/
def bucketIsFree (b : Bucket) : Bool :=
  b.length < b.size

/-- `nextSlot`: first empty slot. -/
def nextSlot (b : Bucket) : Option ℕ :=
  indexOf b.elements []

/-- `set` (plain slot write; all call sites index in range). -/
def bucketSet (b : Bucket) (i : ℕ) (e : GoStr) : Bucket :=
  { b with elements := b.elements.set i e }

/-- `add`: refuses `""` and full buckets (returns `false`); otherwise
writes at `nextSlot` and increments `length`.  `none` models the Go
panic when no empty slot exists and `uint64(-1)` indexes the slice. -/
def bucketAdd (b : Bucket) (element : GoStr) : Option (Bool × Bucket) :=
  if element = [] ∨ ¬ bucketIsFree b then some (false, b)
  else
    match nextSlot b with
    | some j => some (true, { bucketSet b j element with length := b.length + 1 })
    | none => none

/-- `remove`: clear the first matching slot and decrement `length`. -/
def bucketRemove (b : Bucket) (element : GoStr) : Bool × Bucket :=
  match indexOf b.elements element with
  | some j => (true, { bucketSet b j [] with length := b.length - 1 })
  | none => (false, b)

/-- `lookup`. -/
def bucketLookup (b : Bucket) (element : GoStr) : Bool :=
  (indexOf b.elements element).isSome

/-- `equals`: sizes and lengths match and the slots of the receiver all
match the argument at the same index. -/
def bucketEquals (a b : Bucket) : Bool :=
  a.size == b.size && a.length == b.length &&
    ((List.range a.elements.length).all fun i => a.elements.getD i [] == b.elements.getD i [])

/-- `binary.Write(stream, BigEndian, uint64(n))`: eight bytes, most
significant first. -/
def u64be (n : ℕ) : List ℕ :=
  [n % U64 / 2 ^ 56 % 256, n % U64 / 2 ^ 48 % 256, n % U64 / 2 ^ 40 % 256,
   n % U64 / 2 ^ 32 % 256, n % U64 / 2 ^ 24 % 256, n % U64 / 2 ^ 16 % 256,
   n % U64 / 2 ^ 8 % 256, n % U64 % 256]

/-- `writeTo`: capacity, length, then for EVERY slot a length prefix and
the raw bytes. -/
def bucketWriteTo (b : Bucket) : List ℕ :=
  u64be b.size ++ u64be b.length ++ (b.elements.map fun s => u64be s.length ++ s).flatten

/-- `binary.Read` of one big-endian uint64. -/
def read8 (stream : List ℕ) : Option (ℕ × List ℕ) :=
  match stream with
  | b0 :: b1 :: b2 :: b3 :: b4 :: b5 :: b6 :: b7 :: rest =>
    some (((((((b0 * 256 + b1) * 256 + b2) * 256 + b3) * 256 + b4) * 256 + b5) * 256
      + b6) * 256 + b7, rest)
  | _ => none

/-- The read loop of `readFrom`: `for i := uint64(0); i < length; i++`
reads a length prefix and that many bytes into `elements[i]`. -/
def readSlots : ℕ → ℕ → List GoStr → List ℕ → Option (List GoStr × List ℕ)
  | 0, _, elements, stream => some (elements, stream)
  | k + 1, i, elements, stream =>
    match read8 stream with
    | none => none
    | some (strLen, rest) =>
      if strLen ≤ rest.length
      then readSlots k (i + 1) (elements.set i (rest.take strLen)) (rest.drop strLen)
      else none

/-- `readFrom`: size, length, then only `length` slot records — although
`writeTo` emitted one record per slot. -/
def bucketReadFrom (stream : List ℕ) : Option (Bucket × List ℕ) :=
  match read8 stream with
  | none => none
  | some (size, r1) =>
    match read8 r1 with
    | none => none
    | some (length, r2) =>
      match readSlots length 0 (List.replicate size []) r2 with
      | none => none
      | some (elements, rest) => some (⟨size, length, elements⟩, rest)

/-- **C7.** A bucket of capacity 2 holding only `"foo"` in its SECOND
slot — reachable by `add "a"; add "foo"; remove "a"` — does not survive
the stream round trip: `writeTo` emits a record for both slots but
`readFrom` reads only `length = 1` records, so the reconstructed bucket
has lost `"foo"` and eight bytes plus the string stay unread on the
stream. -/
theorem bucket_roundtrip_loses_slot :
    bucketAdd (newBucketMem 2) [97] = some (true, ⟨2, 1, [[97], []]⟩) ∧
    bucketAdd ⟨2, 1, [[97], []]⟩ [102, 111, 111]
      = some (true, ⟨2, 2, [[97], [102, 111, 111]]⟩) ∧
    bucketRemove ⟨2, 2, [[97], [102, 111, 111]]⟩ [97]
      = (true, ⟨2, 1, [[], [102, 111, 111]]⟩) ∧
    bucketReadFrom (bucketWriteTo ⟨2, 1, [[], [102, 111, 111]]⟩)
      = some (⟨2, 1, [[], []]⟩, u64be 3 ++ [102, 111, 111]) ∧
    bucketEquals ⟨2, 1, [[], [102, 111, 111]]⟩ ⟨2, 1, [[], []]⟩ = false := by
  refine ⟨?_, ?_, ?_, ?_, ?_⟩ <;> decide

/-! ## Cuckoo filter (`cuckoo_filter.go`, current flat-package version) (C2, C3)

A datum enters `Insert` only through `getHash(data)` (first word of the
vendored 128-bit hash) — modelled by the parameter `dataHash` — and the
fingerprint hash `getHash([]byte(fingerPrint))` is modelled by the
function parameter `fpHash`.  `rand.Float32() < 0.5` is the parameter
`pick`, and `uint64(math.Ceil(rand.Float64()*float64(Length-1)))` at
kick iteration `i` is the parameter `rnds i` (always in `[0, Length-1]`
for the real generator).  Outcomes: `ok` (returned true), `full`
(`panic("cannot insert element, cuckoofilter is full")`, carrying the
bucket state at the moment of the panic and the eviction trail), and
`crash` (a Go index-out-of-range panic). -/

structure CuckooFilter where
  size : ℕ
  bucketSize : ℕ
  fingerPrintLength : ℕ
  retries : ℕ
  buckets : List Bucket
  length : ℕ
  deriving DecidableEq

/-- One eviction-trail entry `entry{fingerPrint, firstIndex, secondIndex}`. -/
structure KickEntry where
  fingerPrint : GoStr
  firstIndex : ℕ
  secondIndex : ℕ
  deriving DecidableEq

inductive InsertOutcome where
  | ok (f : CuckooFilter) (trail : List KickEntry) : InsertOutcome
  | full (f : CuckooFilter) (trail : List KickEntry) : InsertOutcome
  | crash : InsertOutcome
  deriving DecidableEq

/-- `strconv.FormatUint(hash, 10)` as ASCII bytes. -/
def decimalAscii (n : ℕ) : GoStr :=
  (Nat.toDigits 10 n).map Char.toNat

/-- `AbstractCuckooFilter.getPositions`.  On the `f > len(hashString)`
error path `Insert` DISCARDS the error and continues with the zero
values, which this total version returns directly. -/
def cuckooGetPositions (size fingerPrintLength : ℕ) (dataHash : ℕ)
    (fpHash : GoStr → ℕ) : GoStr × ℕ × ℕ :=
  let hashString := decimalAscii (dataHash % U64)
  if fingerPrintLength > hashString.length then ([], 0, 0)
  else
    let fingerPrint := hashString.take fingerPrintLength
    let firstIndex := (dataHash % U64) % size
    (fingerPrint, firstIndex, (firstIndex ^^^ fpHash fingerPrint) % size)

/-- Undo one recorded trail entry:
`cuckooFilter.buckets[item.firstIndex].Set(item.secondIndex, item.fingerPrint)`. -/
def rollbackStep (bs : List Bucket) (item : KickEntry) : List Bucket :=
  match bs[item.firstIndex]? with
  | some b => bs.set item.firstIndex (bucketSet b item.secondIndex item.fingerPrint)
  | none => bs

/-- `for i := len(items) - 1; i >= 0; i--`: undo the trail in reverse. -/
def rollback (bs : List Bucket) (trail : List KickEntry) : List Bucket :=
  trail.reverse.foldl rollbackStep bs

/-- The eviction loop of `Insert`.  Note what the Go loop does NOT do:
neither `index` nor `currFingerPrint` is reassigned between iterations,
so they stay fixed parameters of the recursion.  `fuel` counts the
remaining retries, `iter` numbers the iterations for `rnds`. -/
def kickLoop (fpHash : GoStr → ℕ) (rnds : ℕ → ℕ) (destructive : Bool)
    (curr : GoStr) (index : ℕ) (cf : CuckooFilter) :
    ℕ → ℕ → List Bucket → List KickEntry → InsertOutcome
  | 0, _, bs, trail =>
    InsertOutcome.full
      { cf with buckets := if destructive then bs else rollback bs trail } trail
  | fuel + 1, iter, bs, trail =>
    match bs[index]? with
    | none => InsertOutcome.crash
    | some bucket =>
      let randIndex := rnds iter
      match bucket.elements[randIndex]? with
      | none => InsertOutcome.crash
      | some prev =>
        let trail2 := trail ++ [⟨prev, index, randIndex⟩]
        let bs2 := bs.set index (bucketSet bucket randIndex curr)
        let newIndex := (index ^^^ fpHash prev) % bs2.length
        match bs2[newIndex]? with
        | none => InsertOutcome.crash
        | some nb =>
          if bucketIsFree nb then
            match bucketAdd nb prev with
            | none => InsertOutcome.crash
            | some (_, nb2) =>
              InsertOutcome.ok
                { cf with buckets := bs2.set newIndex nb2, length := cf.length + 1 } trail2
          else kickLoop fpHash rnds destructive curr index cf fuel (iter + 1) bs2 trail2

/-- `CuckooFilter.Insert`. -/
def cuckooInsert (cf : CuckooFilter) (dataHash : ℕ) (fpHash : GoStr → ℕ)
    (pick : Bool) (rnds : ℕ → ℕ) (destructive : Bool) : InsertOutcome :=
  let fps := cuckooGetPositions cf.size cf.fingerPrintLength dataHash fpHash
  let fp := fps.1
  let fIndex := fps.2.1
  let sIndex := fps.2.2
  match cf.buckets[fIndex]? with
  | none => InsertOutcome.crash
  | some bf =>
    if bucketIsFree bf then
      match bucketAdd bf fp with
      | none => InsertOutcome.crash
      | some (_, bf2) =>
        InsertOutcome.ok
          { cf with buckets := cf.buckets.set fIndex bf2, length := cf.length + 1 } []
    else
      match cf.buckets[sIndex]? with
      | none => InsertOutcome.crash
      | some bs =>
        if bucketIsFree bs then
          match bucketAdd bs fp with
          | none => InsertOutcome.crash
          | some (_, bs2) =>
            InsertOutcome.ok
              { cf with buckets := cf.buckets.set sIndex bs2, length := cf.length + 1 } []
        else
          let index := if pick then fIndex else sIndex
          kickLoop fpHash rnds destructive fp index cf cf.retries 0 cf.buckets []

theorem set_getElem_self {α : Type} (l : List α) (i : ℕ) (a : α) (h : l[i]? = some a) :
    l.set i a = l := by
  induction l generalizing i with
  | nil => cases h
  | cons x l ih =>
    cases i with
    | zero =>
      simp only [List.getElem?_cons_zero, Option.some_inj] at h
      rw [List.set_cons_zero, h]
    | succ i =>
      simp only [List.getElem?_cons_succ] at h
      rw [List.set_cons_succ, ih i h]

theorem rollback_append (bs : List Bucket) (trail : List KickEntry) (item : KickEntry) :
    rollback bs (trail ++ [item]) = rollback (rollbackStep bs item) trail := by
  unfold rollback
  rw [List.reverse_append, List.reverse_singleton, List.singleton_append, List.foldl_cons]

theorem rollbackStep_undo (bs : List Bucket) (index randIndex : ℕ) (bucket : Bucket)
    (curr prev : GoStr) (hb : bs[index]? = some bucket)
    (hp : bucket.elements[randIndex]? = some prev) :
    rollbackStep (bs.set index (bucketSet bucket randIndex curr))
      ⟨prev, index, randIndex⟩ = bs := by
  have hlen : index < bs.length := by
    rcases List.getElem?_eq_some_iff.mp hb with ⟨hlt, _⟩
    exact hlt
  unfold rollbackStep
  have hget : (bs.set index (bucketSet bucket randIndex curr))[index]?
      = some (bucketSet bucket randIndex curr) := by
    simp [List.getElem?_set, hlen]
  rw [hget]
  dsimp only
  have hinner : bucketSet (bucketSet bucket randIndex curr) randIndex prev = bucket := by
    unfold bucketSet
    have : bucket.elements.set randIndex prev = bucket.elements :=
      set_getElem_self _ _ _ hp
    simp [List.set_set, this]
  rw [hinner, List.set_set, set_getElem_self bs index bucket hb]

theorem kickLoop_full_rollback (fpHash : GoStr → ℕ) (rnds : ℕ → ℕ)
    (curr : GoStr) (index : ℕ) (cf : CuckooFilter) (fuel : ℕ) :
    ∀ (iter : ℕ) (bs : List Bucket) (trail : List KickEntry)
      (f2 : CuckooFilter) (t2 : List KickEntry),
      kickLoop fpHash rnds false curr index cf fuel iter bs trail
        = InsertOutcome.full f2 t2 →
      f2.buckets = rollback bs trail ∧ f2.length = cf.length := by
  induction fuel with
  | zero =>
    intro iter bs trail f2 t2 hrun
    unfold kickLoop at hrun
    cases hrun
    constructor <;> simp
  | succ fuel ih =>
    intro iter bs trail f2 t2 hrun
    unfold kickLoop at hrun
    rcases hb : bs[index]? with _ | bucket
    · rw [hb] at hrun; cases hrun
    rw [hb] at hrun
    dsimp only at hrun
    rcases hp : bucket.elements[rnds iter]? with _ | prev
    · rw [hp] at hrun; cases hrun
    rw [hp] at hrun
    dsimp only at hrun
    rcases hn : (bs.set index (bucketSet bucket (rnds iter) curr))[(index ^^^ fpHash prev)
        % (bs.set index (bucketSet bucket (rnds iter) curr)).length]? with _ | nb
    · rw [hn] at hrun; cases hrun
    rw [hn] at hrun
    dsimp only at hrun
    by_cases hfree : bucketIsFree nb = true
    · rw [if_pos hfree] at hrun
      rcases ha : bucketAdd nb prev with _ | pr
      · rw [ha] at hrun; cases hrun
      · rw [ha] at hrun; cases hrun
    · rw [if_neg hfree] at hrun
      have := ih (iter + 1) (bs.set index (bucketSet bucket (rnds iter) curr))
        (trail ++ [⟨prev, index, rnds iter⟩]) f2 t2 hrun
      rcases this with ⟨h1, h2⟩
      refine ⟨?_, h2⟩
      rw [h1, rollback_append, rollbackStep_undo bs index (rnds iter) bucket curr prev hb hp]

/-- **C2.** If `Insert(x, destructive=false)` signals FilterFull after
exhausting all kicks, the bucket array (and the stored length) at the
moment of the panic equals its pre-call state: the recorded trail has
been undone in reverse order. -/
theorem cuckoo_insert_nondestructive_rollback (cf : CuckooFilter) (dataHash : ℕ)
    (fpHash : GoStr → ℕ) (pick : Bool) (rnds : ℕ → ℕ)
    (f2 : CuckooFilter) (t2 : List KickEntry)
    (hrun : cuckooInsert cf dataHash fpHash pick rnds false
      = InsertOutcome.full f2 t2) :
    f2.buckets = cf.buckets ∧ f2.length = cf.length := by
  simp only [cuckooInsert] at hrun
  rcases hf : cf.buckets[(cuckooGetPositions cf.size cf.fingerPrintLength dataHash
      fpHash).2.1]? with _ | bf
  · rw [hf] at hrun; cases hrun
  rw [hf] at hrun
  dsimp only at hrun
  by_cases hfree : bucketIsFree bf = true
  · rw [if_pos hfree] at hrun
    rcases ha : bucketAdd bf (cuckooGetPositions cf.size cf.fingerPrintLength dataHash
        fpHash).1 with _ | pr
    · rw [ha] at hrun; cases hrun
    · rw [ha] at hrun; cases hrun
  · rw [if_neg hfree] at hrun
    rcases hs : cf.buckets[(cuckooGetPositions cf.size cf.fingerPrintLength dataHash
        fpHash).2.2]? with _ | bsnd
    · rw [hs] at hrun; cases hrun
    rw [hs] at hrun
    dsimp only at hrun
    by_cases hfree2 : bucketIsFree bsnd = true
    · rw [if_pos hfree2] at hrun
      rcases ha : bucketAdd bsnd (cuckooGetPositions cf.size cf.fingerPrintLength dataHash
          fpHash).1 with _ | pr
      · rw [ha] at hrun; cases hrun
      · rw [ha] at hrun; cases hrun
    · rw [if_neg hfree2] at hrun
      have := kickLoop_full_rollback fpHash rnds _ _ cf cf.retries 0 cf.buckets [] f2 t2 hrun
      exact ⟨this.1, this.2⟩

/-- Witness for C2 at a concrete full filter: 2 buckets of capacity 1
holding the fingerprints "3" and "4", one retry, datum with hash 6
(fingerprint "6"), fingerprint-hash constantly 1.  The insert exhausts
its kick and panics FilterFull with the buckets rolled back. -/
theorem cuckoo_insert_nondestructive_rollback_witness :
    cuckooInsert ⟨2, 1, 1, 1, [⟨1, 1, [[51]]⟩, ⟨1, 1, [[52]]⟩], 2⟩ 6
        (fun _ => 1) true (fun _ => 0) false
      = InsertOutcome.full ⟨2, 1, 1, 1, [⟨1, 1, [[51]]⟩, ⟨1, 1, [[52]]⟩], 2⟩
          [⟨[51], 0, 0⟩] ∧
    (⟨2, 1, 1, 1, [⟨1, 1, [[51]]⟩, ⟨1, 1, [[52]]⟩], 2⟩ : CuckooFilter).buckets
      = (⟨2, 1, 1, 1, [⟨1, 1, [[51]]⟩, ⟨1, 1, [[52]]⟩], 2⟩ : CuckooFilter).buckets ∧
    (⟨2, 1, 1, 1, [⟨1, 1, [[51]]⟩, ⟨1, 1, [[52]]⟩], 2⟩ : CuckooFilter).length
      = (⟨2, 1, 1, 1, [⟨1, 1, [[51]]⟩, ⟨1, 1, [[52]]⟩], 2⟩ : CuckooFilter).length := by
  have hrun : cuckooInsert ⟨2, 1, 1, 1, [⟨1, 1, [[51]]⟩, ⟨1, 1, [[52]]⟩], 2⟩ 6
      (fun _ => 1) true (fun _ => 0) false
      = InsertOutcome.full ⟨2, 1, 1, 1, [⟨1, 1, [[51]]⟩, ⟨1, 1, [[52]]⟩], 2⟩
          [⟨[51], 0, 0⟩] := by decide
  refine ⟨hrun, ?_, ?_⟩
  · exact (cuckoo_insert_nondestructive_rollback _ 6 (fun _ => 1) true (fun _ => 0)
      _ _ hrun).1
  · exact (cuckoo_insert_nondestructive_rollback _ 6 (fun _ => 1) true (fun _ => 0)
      _ _ hrun).2

/-- **C3.** On the same full filter with two retries: the first kick
evicts fingerprint "3" from bucket 0, whose partner bucket
`i′ = (0 XOR hash("3")) mod 2 = 1` has no room.  Per the claim the
second iteration must continue at bucket `i′ = 1` with "3" as the
current fingerprint; the recorded trail shows the second kick happened
at bucket 0 again and evicted "6" — the fingerprint just written —
because the loop never reassigns `index` or `currFingerPrint`. -/
theorem cuckoo_eviction_keeps_original_bucket :
    cuckooInsert ⟨2, 1, 1, 2, [⟨1, 1, [[51]]⟩, ⟨1, 1, [[52]]⟩], 2⟩ 6
        (fun _ => 1) true (fun _ => 0) false
      = InsertOutcome.full ⟨2, 1, 1, 2, [⟨1, 1, [[51]]⟩, ⟨1, 1, [[52]]⟩], 2⟩
          [⟨[51], 0, 0⟩, ⟨[54], 0, 0⟩] ∧
    (0 ^^^ 1) % 2 = 1 ∧
    ¬ (1 : ℕ) = 0 := by
  refine ⟨by decide, by decide, by decide⟩

/-! ## Top-K (`top_k.go`) (C8)

`TopK` owns a Count-Min Sketch and a `container/heap` min-heap keyed by
frequency.  The heap algorithms (`up`, `down`, `Push`, `Pop`, `Remove`)
are embedded from the Go standard library since `Insert` relies on them;
`up` and `down` are written with explicit fuel (`j+1` and `n`, which
strictly bound their iteration counts) so they stay kernel-reducible.
`Swap` is only ever called in range; the guarded no-op branch below is
dead in every reachable call. -/

structure HeapElement where
  value : GoStr
  frequency : ℕ
  deriving DecidableEq

structure TopKElement where
  element : GoStr
  count : ℕ
  deriving DecidableEq

structure TopK where
  k : ℕ
  sketch : CountMinSketch
  heap : List HeapElement
  deriving DecidableEq

def hdefault : HeapElement := ⟨[], 0⟩

/-- `MinHeap.Less`: compare stored frequencies. -/
def heapLess (h : List HeapElement) (i j : ℕ) : Bool :=
  (h.getD i hdefault).frequency < (h.getD j hdefault).frequency

/-- `MinHeap.Swap`. -/
def listSwap (l : List HeapElement) (i j : ℕ) : List HeapElement :=
  if i < l.length ∧ j < l.length
  then (l.set i (l.getD j hdefault)).set j (l.getD i hdefault)
  else l

/-- `container/heap.up` (fuel-bounded; `j` strictly decreases). -/
def heapUpFuel : ℕ → List HeapElement → ℕ → List HeapElement
  | 0, h, _ => h
  | fuel + 1, h, j =>
    if j = 0 then h
    else
      let i := (j - 1) / 2
      if heapLess h j i then heapUpFuel fuel (listSwap h i j) i else h

def heapUp (h : List HeapElement) (j : ℕ) : List HeapElement :=
  heapUpFuel (j + 1) h j

/-- `container/heap.down` (fuel-bounded; the cursor at least doubles
each iteration and stays below `n`), returning the final cursor. -/
def heapDownFuel : ℕ → List HeapElement → ℕ → ℕ → List HeapElement × ℕ
  | 0, h, i, _ => (h, i)
  | fuel + 1, h, i, n =>
    let j1 := 2 * i + 1
    if n ≤ j1 then (h, i)
    else
      let j := if decide (2 * i + 2 < n) && heapLess h (2 * i + 2) j1 then 2 * i + 2 else j1
      if heapLess h j i then heapDownFuel fuel (listSwap h i j) j n else (h, i)

def heapDown (h : List HeapElement) (i0 n : ℕ) : List HeapElement × Bool :=
  let r := heapDownFuel n h i0 n
  (r.1, decide (i0 < r.2))

/-- `heap.Push`: append, then sift up from the last slot. -/
def heapPush (h : List HeapElement) (x : HeapElement) : List HeapElement :=
  heapUp (h ++ [x]) ((h ++ [x]).length - 1)

/-- `heap.Pop`: swap root and last, sift down, drop the last slot. -/
def heapPop (h : List HeapElement) : List HeapElement :=
  let n := h.length - 1
  ((heapDown (listSwap h 0 n) 0 n).1).take n

/-- `heap.Remove(i)`. -/
def heapRemove (h : List HeapElement) (i : ℕ) : List HeapElement :=
  let n := h.length - 1
  if n ≠ i then
    let hd := heapDown (listSwap h i n) i n
    (if hd.2 then hd.1 else heapUp hd.1 i).take n
  else h.take n

/-- The body of the `Insert` conditional: optionally remove the present
copy of the element, push `(element, freq)`, pop the minimum when the
heap exceeds `k`. -/
def topkInsertBody (t : TopK) (sk : CountMinSketch) (data : GoStr) (freq : ℕ) : TopK :=
  let heap1 :=
    match t.heap.findIdx? (fun e => e.value == data) with
    | some idx => heapRemove t.heap idx
    | none => t.heap
  let heap2 := heapPush heap1 ⟨data, freq⟩
  let heap3 := if t.k < heap2.length then heapPop heap2 else heap2
  ⟨t.k, sk, heap3⟩

/-- `TopK.Insert`.  `none` models the `count <= 0` panic and the
`t.heap[0]` access on an empty heap (`k = 0`).  The datum enters the
sketch through its hash pair `hashF data` and the heap through its raw
bytes `string(data)`. -/
def topkInsert (hashF : GoStr → ℕ × ℕ) (t : TopK) (data : GoStr) (count : ℕ) :
    Option TopK :=
  if count = 0 then none
  else
    let sketch2 := cmsUpdate t.sketch (hashF data) count
    let freq := cmsCount sketch2 (hashF data)
    let enter : Option Bool :=
      if t.heap.length < t.k then some true
      else
        match t.heap[0]? with
        | none => none
        | some h0 => some (decide (h0.frequency ≤ freq))
    match enter with
    | none => none
    | some b =>
      if b then some (topkInsertBody t sketch2 data freq)
      else some ⟨t.k, sketch2, t.heap⟩

/-- `NewTopK` (the sketch dimensions stand for the float sizing from
`errorRate`/`accuracy`): empty heap, zeroed sketch. -/
def newTopK (k rows columns : ℕ) : TopK :=
  ⟨k, newCountMinSketch rows columns, []⟩

/-- A sequence of `Insert` calls (datum bytes, count). -/
def topkRun (hashF : GoStr → ℕ × ℕ) (t : TopK) (ops : List (GoStr × ℕ)) : Option TopK :=
  ops.foldl (fun acc op => acc.bind fun t2 => topkInsert hashF t2 op.1 op.2) (some t)

/-- `strings.Compare(a, b) == -1`: strict lexicographic byte order. -/
def goStrLt : GoStr → GoStr → Bool
  | [], [] => false
  | [], _ :: _ => true
  | _ :: _, [] => false
  | x :: xs, y :: ys => if x < y then true else if y < x then false else goStrLt xs ys

/-- The `sort.Slice` comparator of `Values`: on equal counts order by
element ascending (`Compare = -1` → true, `= 1` → false, otherwise fall
through to `count > count`, which is then false); on distinct counts
order by count descending. -/
def topkLess (x y : TopKElement) : Bool :=
  if x.count = y.count then goStrLt x.element y.element else decide (y.count < x.count)

/-- `a` may precede `b` in the sorted output: the negation of
`topkLess b a`, i.e. count descending with ties broken by element
ascending. -/
def topkOrder (a b : TopKElement) : Prop :=
  topkLess b a = false

instance : DecidableRel topkOrder := fun a b => by
  unfold topkOrder
  infer_instance

/-- `TopK.Values`: collect the heap back-to-front, then sort with the
comparator above.  `sort.Slice` guarantees exactly a permutation that is
sorted for the comparator, which `List.insertionSort` realizes. -/
def topkValues (t : TopK) : List TopKElement :=
  List.insertionSort topkOrder (t.heap.reverse.map fun e => ⟨e.value, e.frequency⟩)

theorem goStrLt_asymm : ∀ a b : GoStr, goStrLt a b = true → goStrLt b a = false := by
  intro a
  induction a with
  | nil =>
    intro b hb
    cases b with
    | nil => cases hb
    | cons y ys => rfl
  | cons x xs ih =>
    intro b hb
    cases b with
    | nil => cases hb
    | cons y ys =>
      unfold goStrLt at hb ⊢
      by_cases hxy : x < y
      · rw [if_neg (by omega), if_pos hxy]
      · rw [if_neg hxy] at hb
        by_cases hyx : y < x
        · rw [if_pos hyx] at hb; cases hb
        · rw [if_neg hyx] at hb
          rw [if_neg hyx, if_neg hxy]
          exact ih ys hb

theorem goStrLt_trans : ∀ a b c : GoStr,
    goStrLt a b = true → goStrLt b c = true → goStrLt a c = true := by
  intro a
  induction a with
  | nil =>
    intro b c hab hbc
    cases b with
    | nil => cases hab
    | cons y ys =>
      cases c with
      | nil => cases hbc
      | cons z zs => rfl
  | cons x xs ih =>
    intro b c hab hbc
    cases b with
    | nil => cases hab
    | cons y ys =>
      cases c with
      | nil => cases hbc
      | cons z zs =>
        unfold goStrLt at hab hbc ⊢
        by_cases hxy : x < y <;> by_cases hyz : y < z
        · rw [if_pos (by omega)]
        · rw [if_neg hyz] at hbc
          by_cases hzy : z < y
          · rw [if_pos hzy] at hbc; cases hbc
          · have : y = z := by omega
            subst this
            rw [if_pos hxy]
        · rw [if_neg hxy] at hab
          by_cases hyx : y < x
          · rw [if_pos hyx] at hab; cases hab
          · have : x = y := by omega
            subst this
            rw [if_pos hyz]
        · rw [if_neg hxy] at hab
          by_cases hyx : y < x
          · rw [if_pos hyx] at hab; cases hab
          · rw [if_neg hyx] at hab
            rw [if_neg hyz] at hbc
            by_cases hzy : z < y
            · rw [if_pos hzy] at hbc; cases hbc
            · rw [if_neg hzy] at hbc
              have hxz : ¬ x < z := by omega
              have hzx : ¬ z < x := by omega
              rw [if_neg hxz, if_neg hzx]
              exact ih ys zs hab hbc

theorem goStrLt_eq_of_not : ∀ a b : GoStr,
    goStrLt a b = false → goStrLt b a = false → a = b := by
  intro a
  induction a with
  | nil =>
    intro b hab _
    cases b with
    | nil => rfl
    | cons y ys => cases hab
  | cons x xs ih =>
    intro b hab hba
    cases b with
    | nil => cases hba
    | cons y ys =>
      unfold goStrLt at hab hba
      by_cases hxy : x < y
      · rw [if_pos hxy] at hab; cases hab
      · rw [if_neg hxy] at hab
        by_cases hyx : y < x
        · rw [if_pos hyx] at hba; cases hba
        · rw [if_neg hyx] at hab
          rw [if_neg hyx, if_neg hxy] at hba
          have hx : x = y := by omega
          rw [hx, ih ys hab hba]

theorem goStrLt_notLt_trans (a b c : GoStr)
    (hba : goStrLt b a = false) (hcb : goStrLt c b = false) :
    goStrLt c a = false := by
  by_cases hca : goStrLt c a = true
  · by_cases hbc : goStrLt b c = true
    · have := goStrLt_trans b c a hbc hca
      rw [this] at hba; cases hba
    · simp only [Bool.not_eq_true] at hbc
      have hcb2 : c = b := goStrLt_eq_of_not c b hcb hbc
      rw [hcb2] at hca
      rw [hca] at hba; cases hba
  · simp only [Bool.not_eq_true] at hca
    exact hca

theorem topkLess_false_elim (x y : TopKElement) (h : topkLess x y = false) :
    (x.count = y.count ∧ goStrLt x.element y.element = false) ∨ x.count < y.count := by
  unfold topkLess at h
  by_cases hc : x.count = y.count
  · rw [if_pos hc] at h
    exact Or.inl ⟨hc, h⟩
  · rw [if_neg hc] at h
    simp only [decide_eq_false_iff_not, not_lt] at h
    exact Or.inr (by omega)

instance : IsTotal TopKElement topkOrder := ⟨by
  intro a b
  unfold topkOrder topkLess
  by_cases hc : b.count = a.count
  · rw [if_pos hc, if_pos (by omega)]
    rcases Bool.eq_false_or_eq_true (goStrLt b.element a.element) with h | h
    · exact Or.inr (goStrLt_asymm b.element a.element h)
    · exact Or.inl h
  · rw [if_neg hc, if_neg (fun h => hc h.symm)]
    rcases Nat.lt_or_ge a.count b.count with h | h
    · refine Or.inr ?_
      simp only [decide_eq_false_iff_not]
      omega
    · refine Or.inl ?_
      simp only [decide_eq_false_iff_not]
      omega⟩

instance : IsTrans TopKElement topkOrder := ⟨by
  intro a b c hab hbc
  unfold topkOrder at hab hbc ⊢
  rcases topkLess_false_elim _ _ hab with ⟨hba, hsba⟩ | hba
  · rcases topkLess_false_elim _ _ hbc with ⟨hcb, hscb⟩ | hcb
    · unfold topkLess
      rw [if_pos (by omega)]
      exact goStrLt_notLt_trans a.element b.element c.element hsba hscb
    · unfold topkLess
      rw [if_neg (by omega)]
      simp only [decide_eq_false_iff_not]
      omega
  · rcases topkLess_false_elim _ _ hbc with ⟨hcb, hscb⟩ | hcb
    · unfold topkLess
      rw [if_neg (by omega)]
      simp only [decide_eq_false_iff_not]
      omega
    · unfold topkLess
      rw [if_neg (by omega)]
      simp only [decide_eq_false_iff_not]
      omega⟩

theorem mem_listSwap {e : HeapElement} (l : List HeapElement) (i j : ℕ)
    (h : e ∈ listSwap l i j) : e ∈ l := by
  unfold listSwap at h
  by_cases hij : i < l.length ∧ j < l.length
  · rw [if_pos hij] at h
    rcases List.mem_or_eq_of_mem_set h with h2 | h2
    · rcases List.mem_or_eq_of_mem_set h2 with h3 | h3
      · exact h3
      · rw [h3, List.getD_eq_getElem l hdefault hij.2]
        exact List.getElem_mem _
    · rw [h2, List.getD_eq_getElem l hdefault hij.1]
      exact List.getElem_mem _
  · rw [if_neg hij] at h
    exact h

theorem length_listSwap (l : List HeapElement) (i j : ℕ) :
    (listSwap l i j).length = l.length := by
  unfold listSwap
  by_cases hij : i < l.length ∧ j < l.length
  · rw [if_pos hij]
    simp
  · rw [if_neg hij]

theorem mem_heapUpFuel {e : HeapElement} :
    ∀ (fuel : ℕ) (h : List HeapElement) (j : ℕ), e ∈ heapUpFuel fuel h j → e ∈ h := by
  intro fuel
  induction fuel with
  | zero => intro h j hm; exact hm
  | succ fuel ih =>
    intro h j hm
    unfold heapUpFuel at hm
    by_cases hj : j = 0
    · rw [if_pos hj] at hm; exact hm
    · rw [if_neg hj] at hm
      by_cases hl : heapLess h j ((j - 1) / 2) = true
      · rw [if_pos hl] at hm
        exact mem_listSwap _ _ _ (ih _ _ hm)
      · rw [if_neg hl] at hm; exact hm

theorem length_heapUpFuel :
    ∀ (fuel : ℕ) (h : List HeapElement) (j : ℕ),
      (heapUpFuel fuel h j).length = h.length := by
  intro fuel
  induction fuel with
  | zero => intro h j; rfl
  | succ fuel ih =>
    intro h j
    unfold heapUpFuel
    by_cases hj : j = 0
    · rw [if_pos hj]
    · rw [if_neg hj]
      by_cases hl : heapLess h j ((j - 1) / 2) = true
      · rw [if_pos hl, ih, length_listSwap]
      · rw [if_neg hl]

theorem mem_heapDownFuel {e : HeapElement} :
    ∀ (fuel : ℕ) (h : List HeapElement) (i n : ℕ),
      e ∈ (heapDownFuel fuel h i n).1 → e ∈ h := by
  intro fuel
  induction fuel with
  | zero => intro h i n hm; exact hm
  | succ fuel ih =>
    intro h i n hm
    unfold heapDownFuel at hm
    by_cases hn : n ≤ 2 * i + 1
    · rw [if_pos hn] at hm; exact hm
    · rw [if_neg hn] at hm
      dsimp only at hm
      by_cases hl : heapLess h
          (if decide (2 * i + 2 < n) && heapLess h (2 * i + 2) (2 * i + 1)
           then 2 * i + 2 else 2 * i + 1) i = true
      · rw [if_pos hl] at hm
        exact mem_listSwap _ _ _ (ih _ _ _ hm)
      · rw [if_neg hl] at hm; exact hm

theorem length_heapDownFuel :
    ∀ (fuel : ℕ) (h : List HeapElement) (i n : ℕ),
      (heapDownFuel fuel h i n).1.length = h.length := by
  intro fuel
  induction fuel with
  | zero => intro h i n; rfl
  | succ fuel ih =>
    intro h i n
    unfold heapDownFuel
    by_cases hn : n ≤ 2 * i + 1
    · rw [if_pos hn]
    · rw [if_neg hn]
      dsimp only
      by_cases hl : heapLess h
          (if decide (2 * i + 2 < n) && heapLess h (2 * i + 2) (2 * i + 1)
           then 2 * i + 2 else 2 * i + 1) i = true
      · rw [if_pos hl, ih, length_listSwap]
      · rw [if_neg hl]

theorem mem_heapPush {e : HeapElement} (h : List HeapElement) (x : HeapElement)
    (hm : e ∈ heapPush h x) : e ∈ h ∨ e = x := by
  unfold heapPush heapUp at hm
  have := mem_heapUpFuel _ _ _ hm
  rcases List.mem_append.mp this with h2 | h2
  · exact Or.inl h2
  · exact Or.inr (List.mem_singleton.mp h2)

theorem length_heapPush (h : List HeapElement) (x : HeapElement) :
    (heapPush h x).length = h.length + 1 := by
  unfold heapPush heapUp
  rw [length_heapUpFuel]
  simp

theorem mem_heapPop {e : HeapElement} (h : List HeapElement)
    (hm : e ∈ heapPop h) : e ∈ h := by
  unfold heapPop heapDown at hm
  dsimp only at hm
  have h1 := (List.take_sublist _ _).subset hm
  exact mem_listSwap _ _ _ (mem_heapDownFuel _ _ _ _ h1)

theorem length_heapPop (h : List HeapElement) :
    (heapPop h).length = h.length - 1 := by
  unfold heapPop heapDown
  dsimp only
  rw [List.length_take, length_heapDownFuel, length_listSwap]
  omega

theorem mem_heapDown {e : HeapElement} (h : List HeapElement) (i n : ℕ)
    (hm : e ∈ (heapDown h i n).1) : e ∈ h := by
  unfold heapDown at hm
  exact mem_heapDownFuel _ _ _ _ hm

theorem length_heapDown (h : List HeapElement) (i n : ℕ) :
    (heapDown h i n).1.length = h.length := by
  unfold heapDown
  exact length_heapDownFuel _ _ _ _

theorem mem_heapUp {e : HeapElement} (h : List HeapElement) (j : ℕ)
    (hm : e ∈ heapUp h j) : e ∈ h := by
  unfold heapUp at hm
  exact mem_heapUpFuel _ _ _ hm

theorem length_heapUp (h : List HeapElement) (j : ℕ) :
    (heapUp h j).length = h.length := by
  unfold heapUp
  exact length_heapUpFuel _ _ _

theorem mem_heapRemove {e : HeapElement} (h : List HeapElement) (i : ℕ)
    (hm : e ∈ heapRemove h i) : e ∈ h := by
  unfold heapRemove at hm
  by_cases hni : h.length - 1 ≠ i
  · rw [if_pos hni] at hm
    dsimp only at hm
    have h1 := (List.take_sublist _ _).subset hm
    by_cases hb : (heapDown (listSwap h i (h.length - 1)) i (h.length - 1)).2 = true
    · rw [if_pos hb] at h1
      exact mem_listSwap _ _ _ (mem_heapDown _ _ _ h1)
    · rw [if_neg hb] at h1
      exact mem_listSwap _ _ _ (mem_heapDown _ _ _ (mem_heapUp _ _ h1))
  · rw [if_neg hni] at hm
    exact (List.take_sublist _ _).subset hm

theorem length_heapRemove (h : List HeapElement) (i : ℕ) :
    (heapRemove h i).length = h.length - 1 := by
  unfold heapRemove
  by_cases hni : h.length - 1 ≠ i
  · rw [if_pos hni]
    dsimp only
    by_cases hb : (heapDown (listSwap h i (h.length - 1)) i (h.length - 1)).2 = true
    · rw [if_pos hb, List.length_take, length_heapDown, length_listSwap]
      omega
    · rw [if_neg hb, List.length_take, length_heapUp, length_heapDown, length_listSwap]
      omega
  · rw [if_neg hni, List.length_take]
    omega

theorem topkInsertBody_props (t : TopK) (sk : CountMinSketch) (data : GoStr)
    (freq : ℕ) (hlen : t.heap.length ≤ t.k) :
    (topkInsertBody t sk data freq).k = t.k ∧
    (topkInsertBody t sk data freq).heap.length ≤ t.k ∧
    ∀ e ∈ (topkInsertBody t sk data freq).heap, e ∈ t.heap ∨ e.value = data := by
  have hlen1 : (match t.heap.findIdx? (fun (e : HeapElement) => e.value == data) with
      | some idx => heapRemove t.heap idx
      | none => t.heap).length ≤ t.heap.length := by
    rcases t.heap.findIdx? (fun (e : HeapElement) => e.value == data) with _ | idx
    · exact Nat.le_refl _
    · rw [length_heapRemove]; omega
  refine ⟨rfl, ?_, ?_⟩
  · show (if t.k < (heapPush _ _).length then heapPop _ else heapPush _ _).length ≤ t.k
    by_cases hp : t.k < (heapPush (match t.heap.findIdx? (fun e => e.value == data) with
        | some idx => heapRemove t.heap idx
        | none => t.heap) ⟨data, freq⟩).length
    · rw [if_pos hp, length_heapPop, length_heapPush]
      rw [length_heapPush] at hp
      omega
    · rw [if_neg hp, length_heapPush]
      rw [length_heapPush] at hp
      omega
  · intro e he
    have he2 : e ∈ heapPush (match t.heap.findIdx? (fun e => e.value == data) with
        | some idx => heapRemove t.heap idx
        | none => t.heap) ⟨data, freq⟩ := by
      revert he
      show e ∈ (if t.k < (heapPush _ _).length then heapPop _ else heapPush _ _) → _
      by_cases hp : t.k < (heapPush (match t.heap.findIdx? (fun e => e.value == data) with
          | some idx => heapRemove t.heap idx
          | none => t.heap) ⟨data, freq⟩).length
      · rw [if_pos hp]
        exact fun he => mem_heapPop _ he
      · rw [if_neg hp]
        exact fun he => he
    rcases mem_heapPush _ _ he2 with h3 | h3
    · refine Or.inl ?_
      rcases hidx : t.heap.findIdx? (fun e => e.value == data) with _ | idx
      · rw [hidx] at h3; exact h3
      · rw [hidx] at h3; exact mem_heapRemove _ _ h3
    · exact Or.inr (by rw [h3])

theorem topkInsert_some_props (hashF : GoStr → ℕ × ℕ) (t : TopK) (data : GoStr)
    (count : ℕ) (t2 : TopK) (hlen : t.heap.length ≤ t.k)
    (hins : topkInsert hashF t data count = some t2) :
    t2.k = t.k ∧ t2.heap.length ≤ t.k ∧
      ∀ e ∈ t2.heap, e ∈ t.heap ∨ e.value = data := by
  simp only [topkInsert] at hins
  by_cases hc0 : count = 0
  · rw [if_pos hc0] at hins; cases hins
  rw [if_neg hc0] at hins
  by_cases hlt : t.heap.length < t.k
  · rw [if_pos hlt] at hins
    dsimp only at hins
    injection hins with hins
    subst hins
    exact topkInsertBody_props t _ data _ hlen
  · rw [if_neg hlt] at hins
    rcases hh0 : t.heap[0]? with _ | h0
    · rw [hh0] at hins; cases hins
    rw [hh0] at hins
    dsimp only at hins
    by_cases hfr : (decide (h0.frequency ≤ cmsCount (cmsUpdate t.sketch (hashF data) count)
        (hashF data))) = true
    · rw [if_pos hfr] at hins
      injection hins with hins
      subst hins
      exact topkInsertBody_props t _ data _ hlen
    · rw [if_neg hfr] at hins
      injection hins with hins
      subst hins
      exact ⟨rfl, hlen, fun e he => Or.inl he⟩

theorem topkRun_foldl_none (hashF : GoStr → ℕ × ℕ) (ops : List (GoStr × ℕ)) :
    ops.foldl (fun acc op => acc.bind fun t2 => topkInsert hashF t2 op.1 op.2) none
      = none := by
  induction ops with
  | nil => rfl
  | cons op ops ih => exact ih

theorem topkRun_props (hashF : GoStr → ℕ × ℕ) :
    ∀ (ops : List (GoStr × ℕ)) (t t2 : TopK), t.heap.length ≤ t.k →
      topkRun hashF t ops = some t2 →
      t2.k = t.k ∧ t2.heap.length ≤ t.k ∧
        ∀ e ∈ t2.heap, e ∈ t.heap ∨ ∃ op ∈ ops, op.1 = e.value := by
  intro ops
  induction ops with
  | nil =>
    intro t t2 hlen hrun
    injection hrun with hrun
    subst hrun
    exact ⟨rfl, hlen, fun e he => Or.inl he⟩
  | cons op ops ih =>
    intro t t2 hlen hrun
    unfold topkRun at hrun
    rw [List.foldl_cons] at hrun
    rcases hins : topkInsert hashF t op.1 op.2 with _ | t1
    · rw [show (some t).bind (fun t2 => topkInsert hashF t2 op.1 op.2) = none from by
        simpa using hins] at hrun
      rw [topkRun_foldl_none] at hrun
      cases hrun
    · rw [show (some t).bind (fun t2 => topkInsert hashF t2 op.1 op.2) = some t1 from by
        simpa using hins] at hrun
      obtain ⟨hk1, hl1, hm1⟩ := topkInsert_some_props hashF t op.1 op.2 t1 hlen hins
      obtain ⟨hk2, hl2, hm2⟩ := ih t1 t2 (by rw [hk1]; exact hl1) hrun
      refine ⟨by rw [hk2, hk1], by rw [← hk1]; exact hl2, ?_⟩
      intro e he
      rcases hm2 e he with h3 | ⟨op2, hop2, hval⟩
      · rcases hm1 e h3 with h4 | h4
        · exact Or.inl h4
        · exact Or.inr ⟨op, List.mem_cons_self op ops, h4.symm⟩
      · exact Or.inr ⟨op2, List.mem_cons_of_mem op hop2, hval⟩

/-- **C8.** After any sequence of successful `Insert` calls on a fresh
Top-K, `Values()` returns between 0 and `k` entries, pairwise ordered by
count descending with ties broken by element ascending (the comparator
of `sort.Slice`), and every returned element was passed to `Insert` at
least once. -/
theorem topk_values_spec (hashF : GoStr → ℕ × ℕ) (k rows columns : ℕ)
    (ops : List (GoStr × ℕ)) (t2 : TopK)
    (hrun : topkRun hashF (newTopK k rows columns) ops = some t2) :
    (topkValues t2).length ≤ k ∧
    List.Pairwise
      (fun a b => b.count < a.count ∨
        (a.count = b.count ∧ goStrLt b.element a.element = false))
      (topkValues t2) ∧
    ∀ e ∈ topkValues t2, ∃ op ∈ ops, op.1 = e.element := by
  obtain ⟨hk, hlen, hmem⟩ := topkRun_props hashF ops (newTopK k rows columns) t2
    (by simp [newTopK]) hrun
  have hperm := List.perm_insertionSort topkOrder
    (t2.heap.reverse.map fun e => ⟨e.value, e.frequency⟩)
  refine ⟨?_, ?_, ?_⟩
  · rw [topkValues, hperm.length_eq]
    simp only [List.length_map, List.length_reverse]
    exact hlen
  · have hs := List.sorted_insertionSort topkOrder
      (t2.heap.reverse.map fun e => ⟨e.value, e.frequency⟩)
    refine List.Pairwise.imp ?_ hs
    intro a b hab
    rcases topkLess_false_elim b a hab with ⟨hcc, hss⟩ | hcc
    · exact Or.inr ⟨hcc.symm, hss⟩
    · exact Or.inl hcc
  · intro e he
    have he1 : e ∈ t2.heap.reverse.map fun e => (⟨e.value, e.frequency⟩ : TopKElement) :=
      hperm.subset he
    rcases List.mem_map.mp he1 with ⟨he2, hmem2, heq⟩
    have hmem3 : he2 ∈ t2.heap := List.mem_reverse.mp hmem2
    rcases hmem he2 hmem3 with h4 | ⟨op, hop, hval⟩
    · simp [newTopK] at h4
    · refine ⟨op, hop, ?_⟩
      rw [hval, ← heq]

/-- Witness for C8 at a concrete run: `k = 1`, a 1×1 sketch, a constant
hash, one insert of the byte string "a" with count 1. -/
theorem topk_values_spec_witness :
    topkRun (fun _ => ((0 : ℕ), (0 : ℕ))) (newTopK 1 1 1) [([97], 1)]
      = some ⟨1, ⟨1, 1, 1, [[1]]⟩, [⟨[97], 1⟩]⟩ ∧
    (topkValues ⟨1, ⟨1, 1, 1, [[1]]⟩, [⟨[97], 1⟩]⟩).length ≤ 1 ∧
    ∀ e ∈ topkValues ⟨1, ⟨1, 1, 1, [[1]]⟩, [⟨[97], 1⟩]⟩,
      ∃ op ∈ [(([97] : GoStr), (1 : ℕ))], op.1 = e.element := by
  have hrun : topkRun (fun _ => ((0 : ℕ), (0 : ℕ))) (newTopK 1 1 1) [([97], 1)]
      = some ⟨1, ⟨1, 1, 1, [[1]]⟩, [⟨[97], 1⟩]⟩ := by decide
  exact ⟨hrun,
    (topk_values_spec (fun _ => (0, 0)) 1 1 1 [([97], 1)] _ hrun).1,
    (topk_values_spec (fun _ => (0, 0)) 1 1 1 [([97], 1)] _ hrun).2.2⟩

end Gostatix
